import Mathlib

/-!
Verification of the text-normalization core and the object-model wrappers of
`pyautocad/utils.py`, over a shallow embedding of the source.

Strings are modelled as Lean `String` values (lists of characters), the regular
expression substitutions of `unformat_mtext` as an explicit left-to-right
single-pass scanner, and `str.replace` as left-to-right non-overlapping
replacement scanners.  The host CAD object graph (layers, model-space entities,
tables) reached over the automation binding is modelled from the interface the
spec documents for that external collaborator.
-/

set_option maxRecDepth 8192

namespace Pyautocad

/-- Scanner for the final part of the directive pattern of `unformat_mtext`:
consumes characters up to and including the first semicolon (the terminating
semicolon of a directive), returning the remainder after it; fails when no
semicolon follows.  Together with `matchBody` this implements the greedy
regular-expression tail described by "one or more non-semicolon characters,
then a semicolon". -/
def eatToSemi : List Char → Option (List Char)
  | [] => none
  | c :: cs => if c = ';' then some cs else eatToSemi cs

/-- The tail "one or more non-semicolon characters then a semicolon" of the
directive pattern: the first character must not be a semicolon, after which
the scan runs to the first semicolon. -/
def matchBody : List Char → Option (List Char)
  | [] => none
  | c :: cs => if c = ';' then none else eatToSemi cs

/-- The escape-marker part of the directive pattern of `unformat_mtext`: an
escape marker (backslash), then a tag character that is not in
`exclude_list` (the negated character class the source builds from
`''.join(exclude_list)`), then `matchBody`.  Exclusion tags are modelled as
plain characters tested by set membership. -/
def matchAfterBS (exclude_list : List Char) : List Char → Option (List Char)
  | [] => none
  | [_] => none
  | c :: t :: cs =>
    if c = '\\' then (if t ∈ exclude_list then none else matchBody cs) else none

/-- The full directive pattern of `unformat_mtext` tried at the head of the
input: an optional opening group brace, then the escaped directive.  When the
head is a brace the escape marker must follow it directly: backtracking to
the empty-brace alternative cannot succeed there, because the brace itself is
not an escape marker. -/
def matchAt (exclude_list : List Char) (s : List Char) : Option (List Char) :=
  match s with
  | [] => none
  | c :: rest =>
    if c = '\x7b' then matchAfterBS exclude_list rest
    else matchAfterBS exclude_list (c :: rest)

/-- Fuel-indexed single left-to-right substitution pass of the first
`re.sub` in `unformat_mtext`: at each position try the directive pattern; on
a match drop the matched span and continue after it, otherwise keep the
character and move on.  The fuel only bounds the number of steps;
`stripDirectives` supplies the input length, which always suffices because
every step consumes at least one character. -/
def stripDirectivesGo (exclude_list : List Char) : Nat → List Char → List Char
  | 0, l => l
  | _ + 1, [] => []
  | n + 1, c :: cs =>
    match matchAt exclude_list (c :: cs) with
    | some rest => stripDirectivesGo exclude_list n rest
    | none => c :: stripDirectivesGo exclude_list n cs

/-- The first substitution of `unformat_mtext`: remove every occurrence of
the directive pattern, scanning left to right without overlap. -/
def stripDirectives (exclude_list : List Char) (l : List Char) : List Char :=
  stripDirectivesGo exclude_list l.length l

/-- The second substitution of `unformat_mtext`: remove every closing group
brace, wherever it occurs. -/
def stripCloseBraces (l : List Char) : List Char :=
  l.filter (fun c => decide (c ≠ '\x7d'))

/-- `unformat_mtext(s, exclude_list=('P', 'S'))` from `pyautocad/utils.py`:
first remove every match of the directive pattern (optional opening brace,
escape marker, tag character outside `exclude_list`, one or more
non-semicolon characters, terminating semicolon), then remove every closing
brace.  The source's default exclusion list is `['P', 'S']`; callers here
pass the exclusion list explicitly. -/
def unformat_mtext (s : String) (exclude_list : List Char) : String :=
  ⟨stripCloseBraces (stripDirectives exclude_list s.data)⟩

/-- Left-to-right non-overlapping replacement of the two-character paragraph
token (escape marker then 'P') by a newline, modelling the
`.replace(u'\\P', u'\n')` step of `mtext_to_string`. -/
def replacePnl : List Char → List Char
  | [] => []
  | [c] => [c]
  | c :: d :: cs =>
    if c = '\\' ∧ d = 'P' then '\n' :: replacePnl cs
    else c :: replacePnl (d :: cs)

/-- `mtext_to_string(s)` from `pyautocad/utils.py`: `unformat_mtext` with its
default exclusion list, then every paragraph token replaced by a newline. -/
def mtext_to_string (s : String) : String :=
  ⟨replacePnl (unformat_mtext s ['P', 'S']).data⟩

/-- The `.replace('\\', '\\\\')` step of `string_to_mtext`: double every
escape marker. -/
def doubleBackslashes : List Char → List Char
  | [] => []
  | c :: cs =>
    if c = '\\' then '\\' :: '\\' :: doubleBackslashes cs
    else c :: doubleBackslashes cs

/-- The `.replace(u'\n', u'\\P')` step of `string_to_mtext`: replace every
newline by the paragraph token. -/
def newlineToP : List Char → List Char
  | [] => []
  | c :: cs =>
    if c = '\n' then '\\' :: 'P' :: newlineToP cs
    else c :: newlineToP cs

/-- `string_to_mtext(s)` from `pyautocad/utils.py`: double every escape
marker, and only then replace every newline by the paragraph token. -/
def string_to_mtext (s : String) : String :=
  ⟨newlineToP (doubleBackslashes s.data)⟩

/-- Whether the two-character paragraph token (escape marker then 'P')
occurs anywhere in the list. -/
def hasBP : List Char → Bool
  | [] => false
  | [_] => false
  | c :: d :: cs => if c = '\\' ∧ d = 'P' then true else hasBP (d :: cs)

/-- Whether two adjacent escape markers (a doubled escape marker) occur
anywhere in the list. -/
def hasAdjBS : List Char → Bool
  | [] => false
  | [_] => false
  | c :: d :: cs => if c = '\\' ∧ d = '\\' then true else hasAdjBS (d :: cs)

/-- Whether the directive pattern of `unformat_mtext` matches at any
position of the list. -/
def hasDirective (exclude_list : List Char) : List Char → Bool
  | [] => false
  | c :: cs => (matchAt exclude_list (c :: cs)).isSome || hasDirective exclude_list cs

/-- Replacement of every newline by the two-character paragraph token,
leaving every other character unchanged.  Stated from the spec's words for
`to-markup` ("replaces only newlines with the paragraph token"), to be
compared with the source-derived `string_to_mtext`. -/
def replaceNewlinesSpec : List Char → List Char
  | [] => []
  | c :: cs => (if c = '\n' then ['\\', 'P'] else [c]) ++ replaceNewlinesSpec cs

/-- Abstract syntax of a markup string, following the data model of the
spec: literal characters, format-change directives (optionally preceded by
an opening group brace, with a tag character and a non-empty body), and
closing-brace group terminators. -/
inductive MToken where
  | lit : Char → MToken
  | directive : Bool → Char → List Char → MToken
  | closeBrace : MToken
deriving DecidableEq

/-- Concrete rendering of one markup token: a directive renders as its
optional opening group brace, the escape marker, the tag character, the
body, and the terminating semicolon. -/
def renderTok : MToken → List Char
  | .lit c => [c]
  | .directive grouped tag body =>
    (if grouped then ['\x7b'] else []) ++ '\\' :: tag :: (body ++ [';'])
  | .closeBrace => ['\x7d']

/-- Concrete rendering of a markup token sequence. -/
def render : List MToken → List Char
  | [] => []
  | t :: ts => renderTok t ++ render ts

/-- Well-formedness of one markup token: literal characters are ordinary
text (not the escape marker, nor a brace), and a directive has an ordinary
tag character and a non-empty body free of semicolons, escape markers and
closing braces — exactly the directive grammar of the spec ("a tag letter
and a run of non-terminator characters, terminated by a semicolon"). -/
def WFTok : MToken → Prop
  | .lit c => c ≠ '\\' ∧ c ≠ '\x7b' ∧ c ≠ '\x7d'
  | .directive _ tag body =>
    tag ≠ '\\' ∧ tag ≠ '\x7d' ∧ body ≠ [] ∧ ';' ∉ body ∧ '\\' ∉ body ∧ '\x7d' ∉ body
  | .closeBrace => True

instance (t : MToken) : Decidable (WFTok t) :=
  match t with
  | .lit c => inferInstanceAs (Decidable (c ≠ '\\' ∧ c ≠ '\x7b' ∧ c ≠ '\x7d'))
  | .directive _ tag body =>
    inferInstanceAs
      (Decidable (tag ≠ '\\' ∧ tag ≠ '\x7d' ∧ body ≠ [] ∧ ';' ∉ body ∧ '\\' ∉ body ∧ '\x7d' ∉ body))
  | .closeBrace => inferInstanceAs (Decidable True)

/-- Well-formedness of a markup token sequence. -/
def WFToks (ts : List MToken) : Prop := ∀ t ∈ ts, WFTok t

instance (ts : List MToken) : Decidable (WFToks ts) :=
  inferInstanceAs (Decidable (∀ t ∈ ts, WFTok t))

/-- The expected effect of `unformat_mtext` on abstract markup: directives
whose tag is in the exclusion list survive unchanged (their opening group
brace included), every other directive is dropped whole, group terminators
are dropped, and literal characters survive. -/
def stripToksAbstract (exclude_list : List Char) : List MToken → List MToken
  | [] => []
  | .directive grouped tag body :: ts =>
    if tag ∈ exclude_list then .directive grouped tag body :: stripToksAbstract exclude_list ts
    else stripToksAbstract exclude_list ts
  | .closeBrace :: ts => stripToksAbstract exclude_list ts
  | .lit c :: ts => .lit c :: stripToksAbstract exclude_list ts

/-- Intermediate abstraction for the first substitution alone: drop the
directives whose tag is not excluded, keep everything else (group
terminators included). -/
def dropStrippedDirectives (exclude_list : List Char) : List MToken → List MToken
  | [] => []
  | .directive grouped tag body :: ts =>
    if tag ∈ exclude_list then .directive grouped tag body :: dropStrippedDirectives exclude_list ts
    else dropStrippedDirectives exclude_list ts
  | .closeBrace :: ts => .closeBrace :: dropStrippedDirectives exclude_list ts
  | .lit c :: ts => .lit c :: dropStrippedDirectives exclude_list ts

/-- Token form of the worked example of `unformat_mtext`'s doc comment. -/
def exampleToks : List MToken :=
  [ .directive true 'f' ("GOST type A|b0|i0|c204|p34").data
  , .lit 'T', .lit 'E', .lit 'S', .lit 'T'
  , .directive false 'f' ("GOST type A|b0|i0|c0|p34").data
  , .lit '1', .lit '2', .lit '3'
  , .closeBrace ]

/-- A model-space entity as consumed by the wrappers: its layer name, its
automation object-type name, and an opaque field standing for all of its
other attributes.  Modelled from the spec: the entity objects live in the
external automation collaborator; the spec documents them as carrying an
object-type-name string, a layer-name string and a delete operation. -/
structure Entity where
  layer : String
  objectName : String
  attrs : Nat
deriving DecidableEq

/-- The entity used to exhibit the suffix (not equality) matching of
`filter_entities`. -/
def sampleTextEntity : Entity := { layer := "0", objectName := "AcDbText", attrs := 0 }

/-- `filter_entities(doc, entity_type)` from `pyautocad/utils.py`: the list
comprehension keeping exactly the model-space entities whose `ObjectName`
ends with `entity_type`, in iteration order.  Python's `str.endswith` is the
suffix test on the character sequences. -/
def filter_entities (modelSpace : List Entity) (entity_type : String) : List Entity :=
  modelSpace.filter (fun e => entity_type.data.isSuffixOf e.objectName.data)

/-- `delete_entities_by_layer(doc, layer_name)` from `pyautocad/utils.py`:
visit every model-space entity in order and delete it when its `Layer`
equals `layer_name`.  The resulting model space is returned; iteration is
modelled over the entity sequence as it was when the loop started. -/
def delete_entities_by_layer (modelSpace : List Entity) (layer_name : String) : List Entity :=
  match modelSpace with
  | [] => []
  | e :: rest =>
    if e.layer = layer_name then delete_entities_by_layer rest layer_name
    else e :: delete_entities_by_layer rest layer_name

/-- A table object as consumed by `suppressed_regeneration_of`: its
`RegenerateTableSuppressed` flag and an opaque field for the rest of its
state.  Modelled from the spec: the table lives in the external automation
collaborator, which documents a settable suppress-regeneration flag. -/
structure Table (α : Type) where
  regenerateTableSuppressed : Bool
  payload : α

/-- Outcome of running the caller-supplied block body: it finishes normally
or raises, and in both cases leaves the table in some state. -/
inductive BodyOutcome (α : Type) where
  | normal : Table α → BodyOutcome α
  | raised : Table α → BodyOutcome α

/-- `suppressed_regeneration_of(table)` from `pyautocad/utils.py`: set the
`RegenerateTableSuppressed` flag, run the block body, and in a finally
clause reset the flag — on the normal path and on the raising path alike,
with a raise still propagating as a raise. -/
def suppressed_regeneration_of {α : Type}
    (table : Table α) (body : Table α → BodyOutcome α) : BodyOutcome α :=
  match body { table with regenerateTableSuppressed := true } with
  | .normal t => .normal { t with regenerateTableSuppressed := false }
  | .raised t => .raised { t with regenerateTableSuppressed := false }

/-- The `RegenerateTableSuppressed` flag of the table state a block leaves
behind, whichever way the block exited. -/
def exitFlag {α : Type} : BodyOutcome α → Bool
  | .normal t => t.regenerateTableSuppressed
  | .raised t => t.regenerateTableSuppressed

/-- Whether a block outcome is a propagating raise. -/
def didRaise {α : Type} : BodyOutcome α → Bool
  | .normal _ => false
  | .raised _ => true

/-- A layer of the document's layer collection: its name and its color
index.  Modelled from the spec: the layer collection is the external
automation collaborator, documented as a collection of named layers with a
settable color index. -/
structure Layer where
  name : String
  color : Nat
deriving DecidableEq

/-- `Layers.Item(layer_name)`: look the layer up by name in the collection.
Modelled from the spec's lookup-by-name interface; the source treats a
missing layer as a falsy lookup result. -/
def layersItem (layers : List Layer) (layer_name : String) : Option Layer :=
  layers.find? (fun l => decide (l.name = layer_name))

/-- `ensure_layer(doc, layer_name, color_index=256)` from
`pyautocad/utils.py`: if the lookup finds nothing, call `Layers.Add` and set
the new layer's color to `color_index` (modelled together as appending a
layer with that color), then return the lookup result.  The third component
counts how many times `Add` was invoked. -/
def ensure_layer (layers : List Layer) (layer_name : String) (color_index : Nat) :
    List Layer × Option Layer × Nat :=
  match layersItem layers layer_name with
  | some _ => (layers, layersItem layers layer_name, 0)
  | none =>
    let layers' := layers ++ [{ name := layer_name, color := color_index }]
    (layers', layersItem layers' layer_name, 1)

/-! Scanner infrastructure lemmas. -/

theorem eatToSemi_length : ∀ {l r : List Char}, eatToSemi l = some r → r.length < l.length := by
  intro l
  induction l with
  | nil => intro r h; simp [eatToSemi] at h
  | cons c cs ih =>
    intro r h
    simp only [eatToSemi] at h
    split at h
    · injection h with h
      subst h
      exact Nat.lt_succ_self _
    · exact Nat.lt_trans (ih h) (Nat.lt_succ_self _)

theorem matchBody_length : ∀ {l r : List Char}, matchBody l = some r → r.length < l.length := by
  intro l r h
  cases l with
  | nil => simp [matchBody] at h
  | cons c cs =>
    simp only [matchBody] at h
    split at h
    · exact Option.noConfusion h
    · exact Nat.lt_trans (eatToSemi_length h) (Nat.lt_succ_self _)

theorem matchAfterBS_length {ex : List Char} :
    ∀ {l r : List Char}, matchAfterBS ex l = some r → r.length < l.length := by
  intro l r h
  cases l with
  | nil => simp [matchAfterBS] at h
  | cons c cs =>
    cases cs with
    | nil => simp [matchAfterBS] at h
    | cons t cs' =>
      simp only [matchAfterBS] at h
      split at h
      · split at h
        · exact Option.noConfusion h
        · have hlen := matchBody_length h
          simp only [List.length_cons]
          omega
      · exact Option.noConfusion h

theorem matchAt_length {ex : List Char} :
    ∀ {l r : List Char}, matchAt ex l = some r → r.length < l.length := by
  intro l r h
  cases l with
  | nil => simp [matchAt] at h
  | cons c cs =>
    simp only [matchAt] at h
    split at h
    · have hlen := matchAfterBS_length h
      simp only [List.length_cons]
      omega
    · exact matchAfterBS_length h

theorem stripDirectivesGo_nil (ex : List Char) : ∀ n, stripDirectivesGo ex n [] = [] := by
  intro n
  cases n <;> rfl

theorem stripDirectivesGo_congr (ex : List Char) :
    ∀ (n m : Nat) (l : List Char), l.length ≤ n → l.length ≤ m →
      stripDirectivesGo ex n l = stripDirectivesGo ex m l := by
  intro n
  induction n with
  | zero =>
    intro m l hn _
    have : l = [] := List.eq_nil_of_length_eq_zero (Nat.le_zero.mp hn)
    subst this
    simp [stripDirectivesGo_nil]
  | succ n ih =>
    intro m l hn hm
    cases l with
    | nil => simp [stripDirectivesGo_nil]
    | cons c cs =>
      cases m with
      | zero => simp at hm
      | succ m' =>
        simp only [stripDirectivesGo]
        cases h : matchAt ex (c :: cs) with
        | some rest =>
          have hlen := matchAt_length h
          simp only [List.length_cons] at hn hm hlen
          exact ih m' rest (by omega) (by omega)
        | none =>
          simp only [List.length_cons] at hn hm
          exact congrArg (c :: ·) (ih m' cs (by omega) (by omega))

theorem stripDirectives_of_match {ex l rest : List Char} (h : matchAt ex l = some rest) :
    stripDirectives ex l = stripDirectives ex rest := by
  cases l with
  | nil => simp [matchAt] at h
  | cons c cs =>
    have hlen := matchAt_length h
    simp only [List.length_cons] at hlen
    unfold stripDirectives
    simp only [List.length_cons, stripDirectivesGo]
    rw [h]
    exact stripDirectivesGo_congr ex cs.length rest.length rest (by omega) le_rfl

theorem stripDirectives_cons_of_none {ex : List Char} {c : Char} {cs : List Char}
    (h : matchAt ex (c :: cs) = none) :
    stripDirectives ex (c :: cs) = c :: stripDirectives ex cs := by
  unfold stripDirectives
  simp only [List.length_cons, stripDirectivesGo]
  rw [h]

theorem matchAfterBS_none_of_head {ex : List Char} :
    ∀ {l : List Char}, l.head? ≠ some '\\' → matchAfterBS ex l = none := by
  intro l h
  cases l with
  | nil => rfl
  | cons c cs =>
    cases cs with
    | nil => rfl
    | cons t cs' =>
      have hc : c ≠ '\\' := by simpa using h
      simp [matchAfterBS, hc]

theorem matchAt_none {ex : List Char} {c : Char} {cs : List Char}
    (h1 : c ≠ '\\') (h2 : c = '\x7b' → cs.head? ≠ some '\\') :
    matchAt ex (c :: cs) = none := by
  by_cases hc : c = '\x7b'
  · simp only [matchAt, if_pos hc]
    exact matchAfterBS_none_of_head (h2 hc)
  · simp only [matchAt, if_neg hc]
    exact matchAfterBS_none_of_head (by simpa using h1)

theorem eatToSemi_run :
    ∀ (b rest : List Char), ';' ∉ b → eatToSemi (b ++ ';' :: rest) = some rest := by
  intro b
  induction b with
  | nil => intro rest _; simp [eatToSemi]
  | cons c cs ih =>
    intro rest h
    have hc : c ≠ ';' := fun hc => h (by simp [hc])
    have hcs : ';' ∉ cs := fun hm => h (List.mem_cons_of_mem _ hm)
    simp only [List.cons_append, eatToSemi, if_neg hc]
    exact ih rest hcs

/-! Behaviour of the substitution pass on rendered markup tokens. -/

theorem matchAt_directive {ex : List Char} {grouped : Bool} {tag : Char} {body rest : List Char}
    (hwf : WFTok (.directive grouped tag body)) (hex : tag ∉ ex) :
    matchAt ex (renderTok (.directive grouped tag body) ++ rest) = some rest := by
  obtain ⟨-, -, hne, hsemi, -, -⟩ := hwf
  cases body with
  | nil => exact absurd rfl hne
  | cons b0 b' =>
    have hb0 : b0 ≠ ';' := fun h => hsemi (by simp [h])
    have hsemi' : ';' ∉ b' := fun h => hsemi (List.mem_cons_of_mem _ h)
    have hbs : ('\\' : Char) ≠ '\x7b' := by decide
    cases grouped with
    | false =>
      show matchAt ex (([] ++ '\\' :: tag :: ((b0 :: b') ++ [';'])) ++ rest) = some rest
      simp only [List.nil_append, List.cons_append, List.append_assoc, List.singleton_append]
      simp only [matchAt, if_neg hbs, matchAfterBS, if_pos rfl, if_neg hex, matchBody,
        if_neg hb0]
      exact eatToSemi_run b' rest hsemi'
    | true =>
      show matchAt ex ((['\x7b'] ++ '\\' :: tag :: ((b0 :: b') ++ [';'])) ++ rest) = some rest
      simp only [List.cons_append, List.append_assoc, List.singleton_append, List.nil_append]
      simp only [matchAt, if_pos rfl, matchAfterBS, if_neg hex, matchBody, if_neg hb0]
      exact eatToSemi_run b' rest hsemi'

theorem stripDirectives_append_inert {ex : List Char} :
    ∀ (u rest : List Char), '\\' ∉ u → rest.head? ≠ some '\\' →
      stripDirectives ex (u ++ rest) = u ++ stripDirectives ex rest := by
  intro u
  induction u with
  | nil => intro rest _ _; simp
  | cons c u' ih =>
    intro rest hbs hrest
    have hc : c ≠ '\\' := fun h => hbs (by simp [h])
    have hbs' : '\\' ∉ u' := fun h => hbs (List.mem_cons_of_mem _ h)
    have hnone : matchAt ex (c :: (u' ++ rest)) = none := by
      apply matchAt_none hc
      intro _
      cases u' with
      | nil => simpa using hrest
      | cons d u'' =>
        have hd : d ≠ '\\' := fun h => hbs' (by simp [h])
        simp [hd]
    rw [List.cons_append, stripDirectives_cons_of_none hnone, ih rest hbs' hrest]
    rfl

theorem stripDirectives_excluded {ex : List Char} {grouped : Bool} {tag : Char}
    {body rest : List Char}
    (hwf : WFTok (.directive grouped tag body)) (hex : tag ∈ ex) :
    stripDirectives ex (renderTok (.directive grouped tag body) ++ rest) =
      renderTok (.directive grouped tag body) ++ stripDirectives ex rest := by
  obtain ⟨htag, -, hne, -, hbs, -⟩ := hwf
  have hskipBS : matchAfterBS ex ('\\' :: tag :: (body ++ ';' :: rest)) = none := by
    simp [matchAfterBS, hex]
  have hstep2 : matchAt ex (tag :: (body ++ ';' :: rest)) = none := by
    apply matchAt_none htag
    intro _
    cases body with
    | nil => exact absurd rfl hne
    | cons b0 b' =>
      have hb0 : b0 ≠ '\\' := fun h => hbs (by simp [h])
      simp [hb0]
  have hbody : stripDirectives ex (body ++ ';' :: rest) =
      body ++ ';' :: stripDirectives ex rest := by
    rw [stripDirectives_append_inert body (';' :: rest) hbs (by simp)]
    have hsemiStep : matchAt ex (';' :: rest) = none :=
      matchAt_none (by decide) (fun h => absurd h (by decide))
    rw [stripDirectives_cons_of_none hsemiStep]
  have hcore : stripDirectives ex ('\\' :: tag :: (body ++ ';' :: rest)) =
      '\\' :: tag :: (body ++ ';' :: stripDirectives ex rest) := by
    have h1 : matchAt ex ('\\' :: tag :: (body ++ ';' :: rest)) = none := by
      simp only [matchAt, if_neg (by decide : ('\\' : Char) ≠ '\x7b')]
      exact hskipBS
    rw [stripDirectives_cons_of_none h1, stripDirectives_cons_of_none hstep2, hbody]
  cases grouped with
  | false =>
    show stripDirectives ex (([] ++ '\\' :: tag :: (body ++ [';'])) ++ rest) = _
    simp only [List.nil_append, List.cons_append, List.append_assoc, List.singleton_append]
    rw [hcore]
    simp [renderTok, List.append_assoc]
  | true =>
    show stripDirectives ex ((['\x7b'] ++ '\\' :: tag :: (body ++ [';'])) ++ rest) = _
    simp only [List.cons_append, List.append_assoc, List.singleton_append, List.nil_append]
    have hbrace : matchAt ex ('\x7b' :: '\\' :: tag :: (body ++ ';' :: rest)) = none := by
      simp only [matchAt, if_pos rfl]
      exact hskipBS
    rw [stripDirectives_cons_of_none hbrace, hcore]
    simp [renderTok, List.append_assoc]

theorem stripDirectives_render {ex : List Char} :
    ∀ (ts : List MToken), WFToks ts →
      stripDirectives ex (render ts) = render (dropStrippedDirectives ex ts) := by
  intro ts
  induction ts with
  | nil => intro _; rfl
  | cons t ts ih =>
    intro hwf
    have hwt : WFTok t := hwf t (by simp)
    have hwts : WFToks ts := fun t' ht' => hwf t' (List.mem_cons_of_mem _ ht')
    cases t with
    | lit c =>
      obtain ⟨h1, h2, -⟩ := hwt
      have hnone : matchAt ex (c :: render ts) = none :=
        matchAt_none h1 (fun hc => absurd hc h2)
      show stripDirectives ex ([c] ++ render ts) = _
      rw [List.singleton_append, stripDirectives_cons_of_none hnone, ih hwts]
      rfl
    | closeBrace =>
      have hnone : matchAt ex ('\x7d' :: render ts) = none :=
        matchAt_none (by decide) (fun h => absurd h (by decide))
      show stripDirectives ex (['\x7d'] ++ render ts) = _
      rw [List.singleton_append, stripDirectives_cons_of_none hnone, ih hwts]
      rfl
    | directive g tag body =>
      show stripDirectives ex (renderTok (.directive g tag body) ++ render ts) = _
      by_cases hex : tag ∈ ex
      · rw [stripDirectives_excluded hwt hex, ih hwts]
        simp [dropStrippedDirectives, hex, render]
      · rw [stripDirectives_of_match (matchAt_directive hwt hex), ih hwts]
        simp [dropStrippedDirectives, hex]

theorem renderTok_no_close {g : Bool} {tag : Char} {body : List Char}
    (hwf : WFTok (.directive g tag body)) :
    '\x7d' ∉ renderTok (.directive g tag body) := by
  obtain ⟨-, htag, -, -, -, hbody⟩ := hwf
  have htag' : ('\x7d' : Char) ≠ tag := fun h => htag h.symm
  intro h
  cases g <;>
    simp [renderTok, List.mem_append, List.mem_cons, htag', hbody,
      (by decide : ('\x7d' : Char) ≠ '\\'), (by decide : ('\x7d' : Char) ≠ ';'),
      (by decide : ('\x7d' : Char) ≠ '\x7b')] at h

theorem stripCloseBraces_render {ex : List Char} :
    ∀ (ts : List MToken), WFToks ts →
      stripCloseBraces (render (dropStrippedDirectives ex ts)) =
        render (stripToksAbstract ex ts) := by
  intro ts
  induction ts with
  | nil => intro _; rfl
  | cons t ts ih =>
    intro hwf
    have hwt : WFTok t := hwf t (by simp)
    have hwts : WFToks ts := fun t' ht' => hwf t' (List.mem_cons_of_mem _ ht')
    cases t with
    | lit c =>
      obtain ⟨-, -, h3⟩ := hwt
      show stripCloseBraces ([c] ++ render (dropStrippedDirectives ex ts)) = _
      unfold stripCloseBraces
      rw [List.filter_append]
      have : List.filter (fun c => decide (c ≠ '\x7d')) [c] = [c] := by
        simp [List.filter, h3]
      rw [this]
      exact congrArg ([c] ++ ·) (ih hwts)
    | closeBrace =>
      show stripCloseBraces (['\x7d'] ++ render (dropStrippedDirectives ex ts)) = _
      unfold stripCloseBraces
      rw [List.filter_append]
      have : List.filter (fun c => decide (c ≠ '\x7d')) ['\x7d'] = [] := by decide
      rw [this, List.nil_append]
      exact ih hwts
    | directive g tag body =>
      by_cases hex : tag ∈ ex
      · show stripCloseBraces
            (render (dropStrippedDirectives ex (.directive g tag body :: ts))) = _
        simp only [dropStrippedDirectives, if_pos hex, stripToksAbstract]
        show stripCloseBraces
            (renderTok (.directive g tag body) ++ render (dropStrippedDirectives ex ts)) = _
        unfold stripCloseBraces
        rw [List.filter_append]
        have hkeep : List.filter (fun c => decide (c ≠ '\x7d'))
            (renderTok (.directive g tag body)) = renderTok (.directive g tag body) := by
          apply List.filter_eq_self.mpr
          intro a ha
          exact decide_eq_true (fun he => renderTok_no_close hwt (he ▸ ha))
        rw [hkeep]
        exact congrArg (renderTok (.directive g tag body) ++ ·) (ih hwts)
      · simp only [dropStrippedDirectives, if_neg hex, stripToksAbstract]
        exact ih hwts

/-- Claim C1: for every well-formed markup token sequence and every
exclusion list, `unformat_mtext` removes in its entirety every directive
whose tag is not in the exclusion list, while every directive whose tag is
in the exclusion list survives verbatim — its opening group brace, escape
marker, tag, body and terminating semicolon included — literal characters
survive, and group terminators are removed; and the worked example of the
source's doc comment evaluates to the documented result. -/
theorem unformat_mtext_exclusion :
    (∀ (exclude_list : List Char) (ts : List MToken), WFToks ts →
      unformat_mtext ⟨render ts⟩ exclude_list = ⟨render (stripToksAbstract exclude_list ts)⟩)
    ∧ unformat_mtext
        "\x7b\\fGOST type A|b0|i0|c204|p34;TEST\\fGOST type A|b0|i0|c0|p34;123\x7d"
        ['P', 'S'] = "TEST123" := by
  constructor
  · intro ex ts hwf
    unfold unformat_mtext
    exact congrArg String.mk
      (by rw [show (String.mk (render ts)).data = render ts from rfl,
              stripDirectives_render ts hwf, stripCloseBraces_render ts hwf])
  · decide

/-- Witness for C1: the exclusion theorem applied to the token form of the
worked example with the default exclusion list. -/
theorem unformat_mtext_exclusion_witness :
    unformat_mtext ⟨render exampleToks⟩ ['P', 'S'] =
      ⟨render (stripToksAbstract ['P', 'S'] exampleToks)⟩ :=
  unformat_mtext_exclusion.1 ['P', 'S'] exampleToks (by decide)

/-! Identity of the substitution pass on match-free input. -/

theorem stripDirectives_id {ex : List Char} :
    ∀ l, hasDirective ex l = false → stripDirectives ex l = l := by
  intro l
  induction l with
  | nil => intro _; rfl
  | cons c cs ih =>
    intro h
    simp only [hasDirective, Bool.or_eq_false_iff] at h
    obtain ⟨h1, h2⟩ := h
    cases hm : matchAt ex (c :: cs) with
    | some rest => rw [hm] at h1; simp at h1
    | none => rw [stripDirectives_cons_of_none hm, ih h2]

theorem close_brace_not_mem_unformat (ex : List Char) (s : String) :
    '\x7d' ∉ (unformat_mtext s ex).data := by
  intro h
  simp [unformat_mtext, stripCloseBraces, List.mem_filter] at h

theorem unformat_mtext_id_of (ex : List Char) (s : String)
    (h1 : hasDirective ex s.data = false) (h2 : '\x7d' ∉ s.data) :
    unformat_mtext s ex = s := by
  unfold unformat_mtext
  rw [stripDirectives_id s.data h1]
  rw [show stripCloseBraces s.data = s.data from
    List.filter_eq_self.mpr (fun c hc => decide_eq_true (fun he => h2 (he ▸ hc)))]

/-- Claim C4: on input free of directive matches and free of group
terminators, `unformat_mtext` is the identity; consequently it is idempotent
on any of its own outputs that is free of directive matches (its outputs are
always free of group terminators). -/
theorem unformat_mtext_identity_idempotent :
    ∀ (exclude_list : List Char) (s : String),
      (hasDirective exclude_list s.data = false → '\x7d' ∉ s.data →
        unformat_mtext s exclude_list = s)
      ∧ (hasDirective exclude_list (unformat_mtext s exclude_list).data = false →
          unformat_mtext (unformat_mtext s exclude_list) exclude_list =
            unformat_mtext s exclude_list) := by
  intro ex s
  exact ⟨unformat_mtext_id_of ex s,
    fun h => unformat_mtext_id_of ex (unformat_mtext s ex) h
      (close_brace_not_mem_unformat ex s)⟩

/-- Witness for C4: both the identity part, on plain directive-free text,
and the idempotence part, on the output of the worked example. -/
theorem unformat_mtext_identity_idempotent_witness :
    unformat_mtext "plain text" ['P', 'S'] = "plain text"
    ∧ unformat_mtext (unformat_mtext "a\\fX;b" ['P', 'S']) ['P', 'S'] =
        unformat_mtext "a\\fX;b" ['P', 'S'] :=
  ⟨(unformat_mtext_identity_idempotent ['P', 'S'] "plain text").1 (by decide) (by decide),
   (unformat_mtext_identity_idempotent ['P', 'S'] "a\\fX;b").2 (by decide)⟩

/-! Malformed directives: without a terminating semicolon nothing matches. -/

theorem eatToSemi_semi_mem : ∀ {l r : List Char}, eatToSemi l = some r → ';' ∈ l := by
  intro l
  induction l with
  | nil => intro r h; simp [eatToSemi] at h
  | cons c cs ih =>
    intro r h
    simp only [eatToSemi] at h
    split at h
    · simp [*]
    · exact List.mem_cons_of_mem _ (ih h)

theorem matchAt_semi_mem {ex : List Char} :
    ∀ {l r : List Char}, matchAt ex l = some r → ';' ∈ l := by
  intro l r h
  cases l with
  | nil => simp [matchAt] at h
  | cons c cs =>
    simp only [matchAt] at h
    have core : ∀ {u : List Char}, matchAfterBS ex u = some r → ';' ∈ u := by
      intro u hu
      cases u with
      | nil => simp [matchAfterBS] at hu
      | cons a us =>
        cases us with
        | nil => simp [matchAfterBS] at hu
        | cons t cs' =>
          simp only [matchAfterBS] at hu
          split at hu
          · split at hu
            · exact Option.noConfusion hu
            · cases cs' with
              | nil => simp [matchBody] at hu
              | cons b0 b' =>
                simp only [matchBody] at hu
                split at hu
                · exact Option.noConfusion hu
                · exact List.mem_cons_of_mem _ (List.mem_cons_of_mem _
                    (List.mem_cons_of_mem _ (eatToSemi_semi_mem hu)))
          · exact Option.noConfusion hu
    split at h
    · exact List.mem_cons_of_mem _ (core h)
    · exact core h

theorem hasDirective_false_of_no_semi {ex : List Char} :
    ∀ {l : List Char}, ';' ∉ l → hasDirective ex l = false := by
  intro l
  induction l with
  | nil => intro _; rfl
  | cons c cs ih =>
    intro h
    have hcs : ';' ∉ cs := fun hm => h (List.mem_cons_of_mem _ hm)
    simp only [hasDirective, Bool.or_eq_false_iff]
    refine ⟨?_, ih hcs⟩
    cases hm : matchAt ex (c :: cs) with
    | some rest => exact absurd (matchAt_semi_mem hm) h
    | none => rfl

/-- Claim C6: a directive missing its terminating semicolon is never matched
by the directive-stripping substitution — on any input without a semicolon,
`unformat_mtext` returns the input as literal text, changed only by the
removal of the closing braces; no error is raised (the function is total by
construction). -/
theorem unformat_mtext_malformed :
    ∀ (exclude_list : List Char) (s : String), ';' ∉ s.data →
      unformat_mtext s exclude_list = ⟨s.data.filter (fun c => decide (c ≠ '\x7d'))⟩ := by
  intro ex s h
  unfold unformat_mtext
  rw [stripDirectives_id s.data (hasDirective_false_of_no_semi h)]
  rfl

/-- Witness for C6: a truncated font directive with no terminating semicolon
passes through `unformat_mtext` as literal text. -/
theorem unformat_mtext_malformed_witness :
    unformat_mtext "\x7b\\fArial|b1 TEST" ['P', 'S'] = "\x7b\\fArial|b1 TEST" := by
  have h := unformat_mtext_malformed ['P', 'S'] "\x7b\\fArial|b1 TEST" (by decide)
  rw [h]
  decide

/-! Replacement scanners: basic identities. -/

theorem doubleBackslashes_id : ∀ {l : List Char}, '\\' ∉ l → doubleBackslashes l = l := by
  intro l
  induction l with
  | nil => intro _; rfl
  | cons c cs ih =>
    intro h
    have hc : c ≠ '\\' := fun hc => h (by simp [hc])
    have hcs : '\\' ∉ cs := fun hm => h (List.mem_cons_of_mem _ hm)
    simp only [doubleBackslashes, if_neg hc]
    rw [ih hcs]

theorem newlineToP_eq_spec : ∀ l : List Char, newlineToP l = replaceNewlinesSpec l := by
  intro l
  induction l with
  | nil => rfl
  | cons c cs ih =>
    by_cases hc : c = '\n'
    · simp [newlineToP, replaceNewlinesSpec, hc, ih]
    · simp [newlineToP, replaceNewlinesSpec, hc, ih]

theorem newlineToP_eq_nil : ∀ {l : List Char}, newlineToP l = [] → l = [] := by
  intro l h
  cases l with
  | nil => rfl
  | cons c cs =>
    simp only [newlineToP] at h
    split at h <;> exact List.noConfusion h

theorem newlineToP_no_close : ∀ {l : List Char}, '\x7d' ∉ l → '\x7d' ∉ newlineToP l := by
  intro l
  induction l with
  | nil => intro _ h; simp [newlineToP] at h
  | cons c cs ih =>
    intro h hm
    have hc : c ≠ '\x7d' := fun hc => h (by simp [hc])
    have hcs : '\x7d' ∉ cs := fun hx => h (List.mem_cons_of_mem _ hx)
    by_cases hn : c = '\n'
    · rw [show newlineToP (c :: cs) = '\\' :: 'P' :: newlineToP cs from by
        simp [newlineToP, hn]] at hm
      simp only [List.mem_cons] at hm
      rcases hm with hm | hm | hm
      · exact absurd hm (by decide)
      · exact absurd hm (by decide)
      · exact ih hcs hm
    · rw [show newlineToP (c :: cs) = c :: newlineToP cs from by simp [newlineToP, hn]] at hm
      simp only [List.mem_cons] at hm
      rcases hm with hm | hm
      · exact hc hm.symm
      · exact ih hcs hm

theorem replacePnl_newlineToP : ∀ {l : List Char}, '\\' ∉ l →
    replacePnl (newlineToP l) = l := by
  intro l
  induction l with
  | nil => intro _; rfl
  | cons c cs ih =>
    intro h
    have hc : c ≠ '\\' := fun hc => h (by simp [hc])
    have hcs : '\\' ∉ cs := fun hm => h (List.mem_cons_of_mem _ hm)
    by_cases hn : c = '\n'
    · rw [show newlineToP (c :: cs) = '\\' :: 'P' :: newlineToP cs from by
        simp [newlineToP, hn]]
      rw [show replacePnl ('\\' :: 'P' :: newlineToP cs) = '\n' :: replacePnl (newlineToP cs)
        from by simp [replacePnl]]
      rw [ih hcs, hn]
    · rw [show newlineToP (c :: cs) = c :: newlineToP cs from by simp [newlineToP, hn]]
      cases hx : newlineToP cs with
      | nil =>
        rw [newlineToP_eq_nil hx]
        rfl
      | cons d xs =>
        have hcd : ¬(c = '\\' ∧ d = 'P') := fun hand => hc hand.1
        rw [show replacePnl (c :: d :: xs) = c :: replacePnl (d :: xs) from by
          simp [replacePnl, hcd]]
        rw [← hx, ih hcs]

/-! The substitution pass is the identity on markup produced from plain text. -/

theorem matchAt_none' {ex : List Char} {c : Char} {cs : List Char}
    (h1 : c ≠ '\\') (h2 : c = '\x7b' → matchAfterBS ex cs = none) :
    matchAt ex (c :: cs) = none := by
  by_cases hc : c = '\x7b'
  · simp only [matchAt, if_pos hc]
    exact h2 hc
  · simp only [matchAt, if_neg hc]
    exact matchAfterBS_none_of_head (by simpa using h1)

theorem matchAfterBS_PS_newlineToP : ∀ {l : List Char}, '\\' ∉ l →
    matchAfterBS ['P', 'S'] (newlineToP l) = none := by
  intro l h
  cases l with
  | nil => rfl
  | cons d l' =>
    by_cases hd : d = '\n'
    · rw [show newlineToP (d :: l') = '\\' :: 'P' :: newlineToP l' from by
        simp [newlineToP, hd]]
      have hmem : ('P' : Char) ∈ ['P', 'S'] := by decide
      simp [matchAfterBS, hmem]
    · have hdbs : d ≠ '\\' := fun hx => h (by simp [hx])
      rw [show newlineToP (d :: l') = d :: newlineToP l' from by simp [newlineToP, hd]]
      exact matchAfterBS_none_of_head (by simpa using hdbs)

theorem strip_newlineToP : ∀ {l : List Char}, '\\' ∉ l →
    stripDirectives ['P', 'S'] (newlineToP l) = newlineToP l := by
  intro l
  induction l with
  | nil => intro _; rfl
  | cons c cs ih =>
    intro h
    have hc : c ≠ '\\' := fun hc => h (by simp [hc])
    have hcs : '\\' ∉ cs := fun hm => h (List.mem_cons_of_mem _ hm)
    by_cases hn : c = '\n'
    · rw [show newlineToP (c :: cs) = '\\' :: 'P' :: newlineToP cs from by
        simp [newlineToP, hn]]
      have h1 : matchAt ['P', 'S'] ('\\' :: 'P' :: newlineToP cs) = none := by
        have e1 : ('\\' : Char) ≠ '\x7b' := by decide
        have e2 : ('P' : Char) ∈ ['P', 'S'] := by decide
        simp [matchAt, e1, matchAfterBS, e2]
      rw [stripDirectives_cons_of_none h1]
      have h2 : matchAt ['P', 'S'] ('P' :: newlineToP cs) = none :=
        matchAt_none' (by decide) (fun hp => absurd hp (by decide))
      rw [stripDirectives_cons_of_none h2, ih hcs]
    · rw [show newlineToP (c :: cs) = c :: newlineToP cs from by simp [newlineToP, hn]]
      have h2 : matchAt ['P', 'S'] (c :: newlineToP cs) = none :=
        matchAt_none' hc (fun _ => matchAfterBS_PS_newlineToP hcs)
      rw [stripDirectives_cons_of_none h2, ih hcs]

/-- Claim C2 (counterexample): escape markers do not round-trip —
`string_to_mtext` doubles the single backslash and `mtext_to_string` does
not undo the doubling, so the round trip of a one-backslash string is the
two-backslash string. -/
theorem roundtrip_backslash_counterexample :
    mtext_to_string (string_to_mtext "\\") ≠ "\\" := by decide

/-- Claim C2 (amended): the round trip `mtext_to_string ∘ string_to_mtext`
preserves every string that contains no escape marker and no closing brace
(literal text and newlines round-trip exactly); strings containing escape
markers come back with those markers doubled, and closing braces are
removed, as shown by the counterexample. -/
theorem roundtrip_preserves_plain_text :
    ∀ s : String, '\\' ∉ s.data → '\x7d' ∉ s.data →
      mtext_to_string (string_to_mtext s) = s := by
  intro s h1 h2
  have hnl : string_to_mtext s = ⟨newlineToP s.data⟩ := by
    unfold string_to_mtext
    rw [doubleBackslashes_id h1]
  rw [hnl]
  unfold mtext_to_string unformat_mtext
  rw [show (String.mk (newlineToP s.data)).data = newlineToP s.data from rfl]
  rw [strip_newlineToP h1]
  have hnoc : '\x7d' ∉ newlineToP s.data := newlineToP_no_close h2
  rw [show stripCloseBraces (newlineToP s.data) = newlineToP s.data from
    List.filter_eq_self.mpr (fun c hc => decide_eq_true (fun he => hnoc (he ▸ hc)))]
  rw [show (String.mk (newlineToP s.data)).data = newlineToP s.data from rfl]
  rw [replacePnl_newlineToP h1]

/-- Witness for C2 (amended): a two-line plain string round-trips through
the markup encoding unchanged. -/
theorem roundtrip_preserves_plain_text_witness :
    mtext_to_string (string_to_mtext "TEST123\ntest321") = "TEST123\ntest321" :=
  roundtrip_preserves_plain_text "TEST123\ntest321" (by decide) (by decide)

/-! Doubled escape markers. -/

theorem hasAdjBS_cons {c : Char} (l : List Char) (hc : c ≠ '\\') :
    hasAdjBS (c :: l) = hasAdjBS l := by
  cases l with
  | nil => rfl
  | cons d l' =>
    simp only [hasAdjBS]
    rw [if_neg (fun hand => hc hand.1)]

theorem hasAdjBS_newlineToP : ∀ {l : List Char}, '\\' ∉ l →
    hasAdjBS (newlineToP l) = false := by
  intro l
  induction l with
  | nil => intro _; rfl
  | cons c cs ih =>
    intro h
    have hc : c ≠ '\\' := fun hc => h (by simp [hc])
    have hcs : '\\' ∉ cs := fun hm => h (List.mem_cons_of_mem _ hm)
    by_cases hn : c = '\n'
    · rw [show newlineToP (c :: cs) = '\\' :: 'P' :: newlineToP cs from by
        simp [newlineToP, hn]]
      rw [show hasAdjBS ('\\' :: 'P' :: newlineToP cs) = hasAdjBS ('P' :: newlineToP cs)
        from by simp [hasAdjBS, (by decide : ¬(('\\' : Char) = '\\' ∧ ('P' : Char) = '\\'))]]
      rw [hasAdjBS_cons _ (by decide)]
      exact ih hcs
    · rw [show newlineToP (c :: cs) = c :: newlineToP cs from by simp [newlineToP, hn]]
      rw [hasAdjBS_cons _ hc]
      exact ih hcs

/-- Claim C3: `string_to_mtext` first doubles every escape marker and only
then replaces newlines by the paragraph token (the composition order is part
of the definition); on input free of escape markers it therefore only
replaces newlines with the paragraph token, and its output contains no
doubled escape marker. -/
theorem string_to_mtext_escape_then_newline :
    (∀ s : String, string_to_mtext s = ⟨newlineToP (doubleBackslashes s.data)⟩)
    ∧ ∀ s : String, '\\' ∉ s.data →
        (string_to_mtext s).data = replaceNewlinesSpec s.data
        ∧ hasAdjBS (string_to_mtext s).data = false := by
  refine ⟨fun s => rfl, fun s h => ⟨?_, ?_⟩⟩
  · show newlineToP (doubleBackslashes s.data) = replaceNewlinesSpec s.data
    rw [doubleBackslashes_id h, newlineToP_eq_spec]
  · show hasAdjBS (newlineToP (doubleBackslashes s.data)) = false
    rw [doubleBackslashes_id h]
    exact hasAdjBS_newlineToP h

/-- Witness for C3: the escape-free two-line string. -/
theorem string_to_mtext_escape_then_newline_witness :
    (string_to_mtext "x\ny").data = replaceNewlinesSpec ("x\ny").data
    ∧ hasAdjBS (string_to_mtext "x\ny").data = false :=
  string_to_mtext_escape_then_newline.2 "x\ny" (by decide)

/-! No residual paragraph tokens after `mtext_to_string`. -/

theorem hasBP_cons {c : Char} (l : List Char) (hc : c ≠ '\\') :
    hasBP (c :: l) = hasBP l := by
  cases l with
  | nil => rfl
  | cons d l' =>
    simp only [hasBP]
    rw [if_neg (fun hand => hc hand.1)]

theorem hasBP_replacePnl_aux :
    ∀ (n : Nat) (l : List Char), l.length ≤ n → hasBP (replacePnl l) = false := by
  intro n
  induction n with
  | zero =>
    intro l h
    have : l = [] := List.eq_nil_of_length_eq_zero (Nat.le_zero.mp h)
    subst this
    rfl
  | succ n ih =>
    intro l h
    rcases l with - | ⟨c, - | ⟨d, cs⟩⟩
    · rfl
    · rfl
    · simp only [List.length_cons] at h
      by_cases hcd : c = '\\' ∧ d = 'P'
      · obtain ⟨hc, hd⟩ := hcd
        subst hc
        subst hd
        rw [show replacePnl ('\\' :: 'P' :: cs) = '\n' :: replacePnl cs from by
          simp [replacePnl]]
        rw [hasBP_cons _ (by decide)]
        exact ih cs (by omega)
      · rw [show replacePnl (c :: d :: cs) = c :: replacePnl (d :: cs) from by
          simp [replacePnl, hcd]]
        by_cases hc : c = '\\'
        · have hd : d ≠ 'P' := fun hdp => hcd ⟨hc, hdp⟩
          subst hc
          rcases cs with - | ⟨e, cs'⟩
          · rw [show replacePnl [d] = [d] from rfl]
            simp [hasBP, hd]
          · by_cases hde : d = '\\' ∧ e = 'P'
            · obtain ⟨hd', he⟩ := hde
              subst hd'
              subst he
              rw [show replacePnl ('\\' :: 'P' :: cs') = '\n' :: replacePnl cs' from by
                simp [replacePnl]]
              rw [show hasBP ('\\' :: '\n' :: replacePnl cs') =
                  hasBP ('\n' :: replacePnl cs') from by
                simp [hasBP, (by decide : ¬(('\\' : Char) = '\\' ∧ ('\n' : Char) = 'P'))]]
              rw [hasBP_cons _ (by decide)]
              exact ih cs' (by simp only [List.length_cons] at h; omega)
            · rw [show replacePnl (d :: e :: cs') = d :: replacePnl (e :: cs') from by
                simp [replacePnl, hde]]
              rw [show hasBP ('\\' :: d :: replacePnl (e :: cs')) =
                  hasBP (d :: replacePnl (e :: cs')) from by
                simp [hasBP, hd]]
              rw [← show replacePnl (d :: e :: cs') = d :: replacePnl (e :: cs') from by
                simp [replacePnl, hde]]
              exact ih (d :: e :: cs') (by simp only [List.length_cons] at h ⊢; omega)
        · rw [hasBP_cons _ hc]
          exact ih (d :: cs) (by simp only [List.length_cons] at h ⊢; omega)

theorem hasBP_replacePnl (l : List Char) : hasBP (replacePnl l) = false :=
  hasBP_replacePnl_aux l.length l le_rfl

/-- Claim C5: `mtext_to_string` is exactly `unformat_mtext` with the default
exclusion list followed by the paragraph-token-to-newline replacement, its
output never contains a residual paragraph token, and the worked example of
the source's doc comment evaluates to the documented result. -/
theorem mtext_to_string_spec :
    (∀ s : String,
      mtext_to_string s = ⟨replacePnl (unformat_mtext s ['P', 'S']).data⟩
      ∧ hasBP (mtext_to_string s).data = false)
    ∧ mtext_to_string
        "\x7b\\fGOST type A|b0|i0|c204|p34;TEST\\fGOST type A|b0|i0|c0|p34;123\x7d\\Ptest321"
        = "TEST123\ntest321" := by
  refine ⟨fun s => ⟨rfl, hasBP_replacePnl _⟩, by decide⟩

/-- Claim C7: `suppressed_regeneration_of` runs the block body on a table
whose suppress flag has been set to true, the flag is false after the scope
exits on every exit path — normal completion and raise alike — and a raise
still propagates out of the scope. -/
theorem suppressed_regeneration_of_resets_flag :
    ∀ (α : Type) (table : Table α) (body : Table α → BodyOutcome α),
      exitFlag (suppressed_regeneration_of table body) = false
      ∧ didRaise (suppressed_regeneration_of table body)
          = didRaise (body { table with regenerateTableSuppressed := true })
      ∧ ({ table with regenerateTableSuppressed := true } : Table α).regenerateTableSuppressed
          = true := by
  intro α table body
  cases h : body { table with regenerateTableSuppressed := true } with
  | normal t => simp [suppressed_regeneration_of, h, exitFlag, didRaise]
  | raised t => simp [suppressed_regeneration_of, h, exitFlag, didRaise]

theorem layersItem_append_self (layers : List Layer) (nm : String) (c : Nat)
    (h : layersItem layers nm = none) :
    layersItem (layers ++ [{ name := nm, color := c }]) nm =
      some { name := nm, color := c } := by
  unfold layersItem at h ⊢
  rw [List.find?_append, h]
  simp

/-- Claim C8: `ensure_layer` creates at most once — across two calls with
the same layer name the layer-collection `Add` operation runs at most once
in total, and the second call leaves the collection unchanged and returns
the same layer as the first call, whatever color index either call was
given. -/
theorem ensure_layer_idempotent :
    ∀ (layers : List Layer) (layer_name : String) (c1 c2 : Nat),
      (ensure_layer layers layer_name c1).2.2
          + (ensure_layer (ensure_layer layers layer_name c1).1 layer_name c2).2.2 ≤ 1
      ∧ (ensure_layer (ensure_layer layers layer_name c1).1 layer_name c2).1
          = (ensure_layer layers layer_name c1).1
      ∧ (ensure_layer (ensure_layer layers layer_name c1).1 layer_name c2).2.1
          = (ensure_layer layers layer_name c1).2.1 := by
  intro layers nm c1 c2
  cases h : layersItem layers nm with
  | some l => simp [ensure_layer, h]
  | none =>
    have hfind := layersItem_append_self layers nm c1 h
    simp [ensure_layer, h, hfind]

/-- Claim C9: `delete_entities_by_layer` removes exactly the model-space
entities whose layer equals the given name — the result is the filter of
the model space on the complementary predicate, membership in the result is
equivalent to membership in the original model space with a different
layer, and the result is a sublist of the original, so every surviving
entity is the original entity value, in the original order; nothing else of
the modelled document state is touched. -/
theorem delete_entities_by_layer_exact :
    ∀ (modelSpace : List Entity) (layer_name : String),
      delete_entities_by_layer modelSpace layer_name
        = modelSpace.filter (fun e => decide (e.layer ≠ layer_name))
      ∧ (∀ e, e ∈ delete_entities_by_layer modelSpace layer_name ↔
          e ∈ modelSpace ∧ e.layer ≠ layer_name)
      ∧ (delete_entities_by_layer modelSpace layer_name).Sublist modelSpace := by
  intro ms nm
  have hf : delete_entities_by_layer ms nm
      = ms.filter (fun e => decide (e.layer ≠ nm)) := by
    induction ms with
    | nil => rfl
    | cons e rest ih =>
      by_cases h : e.layer = nm
      · simp [delete_entities_by_layer, h, List.filter, ih]
      · simp [delete_entities_by_layer, h, List.filter, ih]
  refine ⟨hf, fun e => ?_, ?_⟩
  · rw [hf, List.mem_filter]
    simp
  · rw [hf]
    exact List.filter_sublist _

/-- Claim C10: `filter_entities` returns exactly the model-space entities
whose object name ends with the given type string — a sublist of the model
space (so in iteration order, entities unchanged), with membership
equivalent to membership in the model space plus the suffix test — and the
matching is a suffix match, not equality: an entity named `AcDbText` is
returned for the type string `Text` although its name differs from it.  The
function reads the model space and modifies nothing. -/
theorem filter_entities_suffix_match :
    (∀ (modelSpace : List Entity) (entity_type : String),
      (filter_entities modelSpace entity_type).Sublist modelSpace
      ∧ ∀ e, e ∈ filter_entities modelSpace entity_type ↔
          e ∈ modelSpace ∧ entity_type.data.isSuffixOf e.objectName.data = true)
    ∧ filter_entities [sampleTextEntity] "Text" = [sampleTextEntity]
    ∧ sampleTextEntity.objectName ≠ "Text" := by
  refine ⟨fun ms ty => ⟨List.filter_sublist _, fun e => ?_⟩, by decide, by decide⟩
  exact List.mem_filter

end Pyautocad
